import Mathlib

/-!
Verification of the pair-spread statistical engine of the Quant_bot
repository: a shallow embedding of the threshold selector, reversion
backtester, spread/z-score computation, Engle-Granger driver filtering,
cointegration classification and series alignment, with theorems settling
the behavioural claims about those components.

Z-scores, prices and p-values are embedded as exact rationals; dates as
integers (day numbers, so that Python's `(d - d0).days` is plain integer
subtraction and ISO-string comparison is integer comparison).
-/

namespace QuantBot

/-- One chronological observation handed to the scans: a date and a z-score.
Mirrors the `{'date': ..., 'z_score': ...}` rows built in
`data_extraction/entry_dates.py`. -/
structure Obs where
  date : Int
  z : ℚ
deriving DecidableEq, Repr

/-! ## ThresholdSelector: `most_frequent_one_unit_drop` (entry_dates.py lines 16-58) -/

/-- Per-threshold mutable state of `most_frequent_one_unit_drop`:
`{"above": False, "drop_start": None}`. -/
structure ThState where
  above : Bool
  dropStart : Option Int
deriving DecidableEq, Repr

/-- The candidate thresholds `[round(x / 10, 1) for x in range(20, 9, -1)]`,
i.e. 2.0, 1.9, ..., 1.0. -/
def thresholds : List ℚ :=
  [2, 19/10, 18/10, 17/10, 16/10, 15/10, 14/10, 13/10, 12/10, 11/10, 1]

/-- Python's `abs` on a rational, written executably (`|q|` from the order
lattice does not evaluate in the kernel). -/
def absQ (q : ℚ) : ℚ :=
  if q < 0 then -q else q

/-- One row of the selector scan for a single candidate threshold `S`:
the if/elif chain in the body of `most_frequent_one_unit_drop`, returning
the updated state together with the increment (0 or 1) applied to
`drops[S]`. Python's truthiness test `st["drop_start"]` on a date object
is `drop_start is not None`. -/
def thStep (S : ℚ) (st : ThState) (o : Obs) : ThState × Nat :=
  let absZ := absQ o.z
  if S ≤ absZ ∧ st.above = false ∧ st.dropStart = none then
    ({ st with above := true }, 0)
  else if (S - 1 ≤ absZ ∧ absZ < S) ∧ st.above = true ∧ st.dropStart = none then
    ({ st with dropStart := some o.date }, 0)
  else
    match st.dropStart with
    | some d0 =>
        if absZ < S - 1 then
          (⟨false, none⟩, if o.date - d0 ≤ 30 then 1 else 0)
        else (st, 0)
    | none => (st, 0)

/-- The chronological scan of the selector for one threshold, accumulating
the drop counter. -/
def thRun (S : ℚ) : ThState → Nat → List Obs → ThState × Nat
  | st, n, [] => (st, n)
  | st, n, o :: rest => thRun S (thStep S st o).1 (n + (thStep S st o).2) rest

/-- Final value of `drops[S]` after scanning `epsilon_data` (0 when the
key was never incremented, matching `defaultdict(int)`). -/
def dropsCount (data : List Obs) (S : ℚ) : Nat :=
  (thRun S ⟨false, none⟩ 0 data).2

/-- Python's `max(items, key=lambda kv: (kv[1], kv[0]))` specialised to the
drops dictionary: fold keeping the current best unless the candidate's
(count, threshold) key is strictly lexicographically greater. Distinct
thresholds make the maximal key unique, so the iteration order of the
dictionary is immaterial. -/
def selectDrop (x : ℚ × Nat) (xs : List (ℚ × Nat)) : ℚ × Nat :=
  xs.foldl
    (fun best p =>
      if best.2 < p.2 ∨ (best.2 = p.2 ∧ best.1 < p.1) then p else best) x

/-- `most_frequent_one_unit_drop`: run the multi-automaton scan, keep the
thresholds whose drop counter was ever incremented (exactly the keys
present in the `defaultdict`), return 7 when there are none, otherwise the
key-maximal entry's threshold. -/
def mostFrequentOneUnitDrop (data : List Obs) : ℚ :=
  match (thresholds.map (fun S => (S, dropsCount data S))).filter
      (fun p => decide (p.2 ≠ 0)) with
  | [] => 7
  | x :: xs => (selectDrop x xs).1

/-! ## ReversionBacktester: `analyze_threshold_reversions` (entry_dates.py lines 63-158) -/

/-- Trade direction, the `trade_type` string `'upper'`/`'lower'`. -/
inductive TradeDir where
  | upper
  | lower
deriving DecidableEq, Repr

/-- One appended entry of the backtester's `entries` list:
`{"entry_date": ..., "exit_date": ..., "success": ..., "type": ...}`. -/
structure TradeRec where
  entry_date : Int
  exit_date : Int
  success : Bool
  ttype : TradeDir
deriving DecidableEq, Repr

/-- Mutable state of `analyze_threshold_reversions`: the open position
(`in_trade` with `trade_type`, `entry_date`, `entry_index`) and the
accumulated `entries`. -/
structure BTState where
  pos : Option (TradeDir × Int × Nat)
  entries : List TradeRec
deriving DecidableEq, Repr

/-- The exit (reversion) condition checked while in a trade:
`z <= threshold - 1` for upper, `z >= -threshold + 1` for lower. -/
def exitCond (S : ℚ) (ty : TradeDir) (z : ℚ) : Prop :=
  match ty with
  | .upper => z ≤ S - 1
  | .lower => -S + 1 ≤ z

instance (S : ℚ) (ty : TradeDir) (z : ℚ) : Decidable (exitCond S ty z) := by
  unfold exitCond; cases ty <;> infer_instance

/-- One iteration of the backtester loop at index `i` on row `o`. When flat,
`z >= threshold` opens an upper trade, `elif z <= -threshold` a lower one.
When in a trade the reversion exit is checked first (the success branch
ends with `continue`), then the timeout `i - entry_index >= 30` records a
failure; otherwise the row is a no-op. -/
def btStep (S : ℚ) (st : BTState) (i : Nat) (o : Obs) : BTState :=
  match st.pos with
  | none =>
      if S ≤ o.z then { st with pos := some (.upper, o.date, i) }
      else if o.z ≤ -S then { st with pos := some (.lower, o.date, i) }
      else st
  | some (ty, ed, ei) =>
      if exitCond S ty o.z then
        { pos := none, entries := st.entries ++ [⟨ed, o.date, true, ty⟩] }
      else if 30 ≤ i - ei then
        { pos := none, entries := st.entries ++ [⟨ed, o.date, false, ty⟩] }
      else st

/-- The enumerated scan `for i, row in enumerate(epsilon_data)`. -/
def btRun (S : ℚ) : BTState → Nat → List Obs → BTState
  | st, _, [] => st
  | st, i, o :: rest => btRun S (btStep S st i o) (i + 1) rest

/-- The `results` list returned by `analyze_threshold_reversions`. -/
def analyzeThresholdReversions (S : ℚ) (data : List Obs) : List TradeRec :=
  (btRun S ⟨none, []⟩ 0 data).entries

/-- Well-formedness of the recorded trade windows: every window opens
strictly before it closes, and successive windows are strictly separated
(each closes strictly before the next opens). -/
def entriesOK (l : List TradeRec) : Prop :=
  (∀ e ∈ l, e.entry_date < e.exit_date) ∧
  l.Pairwise (fun a b => a.exit_date < b.entry_date)

/-- Invariant of the backtester scan relative to the not-yet-processed
suffix of the input: recorded windows are well formed and closed strictly
before every future date, and an open trade was entered strictly after
every recorded window closed and strictly before every future date. -/
def stInv (st : BTState) (future : List Obs) : Prop :=
  entriesOK st.entries ∧
  (∀ e ∈ st.entries, ∀ o ∈ future, e.exit_date < o.date) ∧
  (∀ ty ed ei, st.pos = some (ty, ed, ei) →
    (∀ o ∈ future, ed < o.date) ∧ (∀ e ∈ st.entries, e.exit_date < ed))

/-! ## SpreadComputer: the rolling-stats loop of epsilon.py (lines 43-69) -/

/-- Spread series `spread = A - alpha - beta * B` over the aligned
log-price columns (epsilon.py line 44). -/
def spreadSeries (a b : List ℚ) (alpha beta : ℚ) : List ℚ :=
  List.zipWith (fun x y => x - alpha - beta * y) a b

/-- Pandas `Series.mean()` over a window: sum divided by length. -/
def listMean (l : List ℚ) : ℚ :=
  l.sum / (l.length : ℚ)

/-- Pandas `Series.std()` squared, with the default `ddof=1`: sum of squared
deviations from the mean divided by `n - 1`. For the 90-point windows of
the loop the divisor is 89. -/
def sampleVar (l : List ℚ) : ℚ :=
  ((l.map (fun x => (x - listMean l) ^ 2)).sum) / ((l.length : ℚ) - 1)

/-- The trailing window `df.iloc[t-90:t]['spread']`: the 90 spreads strictly
before index `t`. -/
def window (spread : List ℚ) (t : Nat) : List ℚ :=
  (spread.drop (t - 90)).take 90

/-- `mean` of the loop body (epsilon.py line 57). -/
def rollingMean (spread : List ℚ) (t : Nat) : ℚ :=
  listMean (window spread t)

/-- The squared rolling standard deviation of the loop body. -/
def rollingVar (spread : List ℚ) (t : Nat) : ℚ :=
  sampleVar (window spread t)

/-- `std` of the loop body (epsilon.py line 58): the square root of the
sample variance, as a real number since it is irrational in general. -/
noncomputable def rollingStd (spread : List ℚ) (t : Nat) : ℝ :=
  Real.sqrt (rollingVar spread t)

/-- The guarded z-score computed inside the loop (epsilon.py line 61):
`z = (current_spread - mean) / std if std != 0 else 0`. -/
noncomputable def loopZscore (spread : List ℚ) (t : Nat) : ℝ :=
  if rollingStd spread t ≠ 0 then
    ((spread.getD t 0 - rollingMean spread t : ℚ) : ℝ) / rollingStd spread t
  else 0

/-- An IEEE-754-style value as produced by the numpy/pandas columnwise
arithmetic: a finite real, a signed infinity, or NaN. -/
inductive PFloat where
  | fin (x : ℝ)
  | posInf
  | negInf
  | nan

/-- Numpy's float division on finite operands: `x / 0` is NaN for `x = 0`
and a signed infinity otherwise; finite quotient elsewhere. -/
noncomputable def pfDiv (num den : ℝ) : PFloat :=
  if den = 0 then
    if num = 0 then .nan
    else if 0 < num then .posInf
    else .negInf
  else .fin (num / den)

/-- The z-score actually recorded for row `t`: epsilon.py line 69 recomputes
the whole `zscore` column as `(df['spread'] - df['rolling_mean']) /
df['rolling_std']` after the loop, overwriting the guarded loop value, and
line 98 stores `row['zscore']` into the batch. -/
noncomputable def storedZscore (spread : List ℚ) (t : Nat) : PFloat :=
  pfDiv ((spread.getD t 0 - rollingMean spread t : ℚ) : ℝ) (rollingStd spread t)

/-- The concrete failing input for the zero-std edge case: an aligned pair
whose spread is 0 on the first 90 days and 1 on day 90 (alpha = 0,
beta = 0, series B irrelevant). -/
def spreadFlat : List ℚ :=
  spreadSeries (List.replicate 90 0 ++ [1]) (List.replicate 91 3) 0 0

/-! ## CointegrationTester driver: `run_engle_granger_test`
(data_extraction/cointegration_test.py lines 49-90) -/

/-- One aligned log-price row `(date, log_price1, log_price2)`. -/
abbrev PricePt := Int × ℚ × ℚ

/-- Result dictionary of one Engle-Granger test: p-value and OLS beta (the
test date is environmental and omitted). -/
structure EGOut where
  p_value : ℚ
  beta : ℚ
deriving DecidableEq, Repr

/-- The error taxonomy of the specification, section 7. -/
inductive PipeErr where
  | insufficientData
  | degenerateRegression
  | duplicateDate
deriving DecidableEq, Repr

/-- The loop of `run_engle_granger_test`: pairs with fewer than 20 points
hit `continue` (line 65-66), pairs whose statistical test raises hit the
`except` branch and `continue`; everything else contributes a result. The
statistical test itself (statsmodels `coint` + OLS) is the external
collaborator `egTest`, with `none` standing for a raised exception. -/
def runEngleGrangerTest (egTest : List PricePt → Option EGOut) :
    List ((String × String) × List PricePt) → List ((String × String) × EGOut)
  | [] => []
  | (pair, prices) :: rest =>
      if prices.length < 20 then runEngleGrangerTest egTest rest
      else
        match egTest prices with
        | some r => (pair, r) :: runEngleGrangerTest egTest rest
        | none => runEngleGrangerTest egTest rest

/-- `run_engle_granger_test` viewed in an exception monad: the function body
contains no `raise` reachable from the short-series branch, so the run
always returns normally with the filtered result list. -/
def runEngleGrangerTestE (egTest : List PricePt → Option EGOut)
    (logPrices : List ((String × String) × List PricePt)) :
    Except PipeErr (List ((String × String) × EGOut)) :=
  .ok (runEngleGrangerTest egTest logPrices)

/-- A statistical-test stub for concrete evaluations. -/
def egTestConst : List PricePt → Option EGOut :=
  fun _ => some ⟨1/100, 1⟩

/-- Ten aligned points, the insufficient-data scenario of the spec. -/
def tenPts : List PricePt :=
  (List.range 10).map (fun i => ((i : Int), 1, 1))

/-! ## Cointegration classification (DB/database.py lines 548-573,
analyze_newcoint.py lines 47-83) -/

/-- One row of the `cointegration_tests` table joined with ticker symbols. -/
structure CointRow where
  sym1 : String
  sym2 : String
  p_value : ℚ
  beta : ℚ
  test_date : Int
deriving DecidableEq, Repr

/-- The `latest_test_date` CTE: `MAX(test_date)` over the table. -/
def latestTestDate (table : List CointRow) : Option Int :=
  (table.map (·.test_date)).max?

/-- `get_latest_cointegrated_pairs`: rows of the latest test date passing
the `WHERE ct.p_value <= ?` filter, projected to (symbol1, symbol2, beta).
The SQL DISTINCT and ORDER BY do not affect which pairs are classified. -/
def getLatestCointegratedPairs (table : List CointRow) (maxP : ℚ) :
    List (String × String × ℚ) :=
  match latestTestDate table with
  | none => []
  | some d =>
      (table.filter (fun r => decide (r.test_date = d ∧ r.p_value ≤ maxP))).map
        (fun r => (r.sym1, r.sym2, r.beta))

/-- One completed cointegration period of `analyze_cointegration_duration`,
with the averages computed when the period is closed. -/
structure CPeriod where
  start_date : Int
  end_date : Int
  duration_days : Nat
  avg_p_value : ℚ
  avg_beta : ℚ
deriving DecidableEq, Repr

/-- The per-pair period scan of `analyze_cointegration_duration`
(lines 44-80): a test with `p_value <= max_p_value` starts or extends the
current period, anything else closes it; a trailing open period is closed
at the end. The accumulator carries (start, end, count, sum of p, sum of
beta) of the open period. -/
def buildPeriods (maxP : ℚ) :
    Option (Int × Int × Nat × ℚ × ℚ) → List (Int × ℚ × ℚ) → List CPeriod
  | none, [] => []
  | some (s, e, n, sp, sb), [] => [⟨s, e, n, sp / n, sb / n⟩]
  | cur, (d, p, b) :: rest =>
      if p ≤ maxP then
        match cur with
        | none => buildPeriods maxP (some (d, d, 1, p, b)) rest
        | some (s, _, n, sp, sb) =>
            buildPeriods maxP (some (s, d, n + 1, sp + p, sb + b)) rest
      else
        match cur with
        | none => buildPeriods maxP none rest
        | some (s, e, n, sp, sb) =>
            ⟨s, e, n, sp / n, sb / n⟩ :: buildPeriods maxP none rest

/-! ## Alpha plumbing (epsilon.py lines 15-20, database.py lines 345-360,
new_cointstrat.py lines 154-164) -/

/-- A Python value inside a fetched row. -/
inductive PyVal where
  | pstr (s : String)
  | pnum (q : ℚ)
deriving DecidableEq, Repr

/-- A row of `get_latest_cointegrated_pairs` as the Python tuple it is:
`(symbol1, symbol2, beta)` — three elements. -/
def cointRowTuple (r : String × String × ℚ) : List PyVal :=
  [.pstr r.1, .pstr r.2.1, .pnum r.2.2]

/-- The element access `pair[3]` performed by the `alphas` dict
comprehension in epsilon.py line 20. -/
def alphaOfRow (r : String × String × ℚ) : Option PyVal :=
  (cointRowTuple r).get? 3

/-- The comprehension `{(pair[0], pair[1]): pair[3] for pair in
cointegrated_data}`: builds the whole dict, failing (IndexError, modelled
as `none`) as soon as any row's index-3 access fails. -/
def alphasDict (rows : List (String × String × ℚ)) :
    Option (List ((String × String) × PyVal)) :=
  rows.mapM (fun r => (alphaOfRow r).map (fun v => ((r.1, r.2.1), v)))

/-- The named parameters of `Database.add_cointegration_test`
(database.py lines 345-346); there is no `alpha` parameter. -/
def addCointegrationTestParams : List String :=
  ["ticker_id_1", "ticker_id_2", "p_value", "beta", "test_date"]

/-- The keyword arguments passed by `analyze_single_pair`
(new_cointstrat.py lines 157-164), including `alpha=alpha`. -/
def analyzeSinglePairKwargs : List String :=
  ["ticker_id_1", "ticker_id_2", "p_value", "alpha", "beta", "test_date"]

/-! ## SeriesAligner: `get_pair_log_prices` (new_cointstrat.py lines 10-57) -/

/-- The `start_date <= date <= end_date` window filter applied to a
`(price_id, date)` list. -/
def inRange (lo hi : Int) (pr : Nat × Int) : Bool :=
  decide (lo ≤ pr.2 ∧ pr.2 ≤ hi)

/-- The dict comprehension `{date: price_id for price_id, date in prices}`:
later list entries overwrite earlier ones, so a lookup returns the last
matching price id. -/
def priceDict (prices : List (Nat × Int)) (d : Int) : Option Nat :=
  ((prices.filter (fun pr => decide (pr.2 = d))).getLast?).map (·.1)

/-- The date set of a price list. -/
def dateSet (prices : List (Nat × Int)) : Finset Int :=
  (prices.map (·.2)).toFinset

/-- `sorted(set(price_dict_1.keys()) & set(price_dict_2.keys()))`. -/
def commonDates (p1 p2 : List (Nat × Int)) : List Int :=
  (dateSet p1 ∩ dateSet p2).sort (· ≤ ·)

/-- The body of the output loop for one common date: look up both price
ids, then keep the date only if both appear in the `log_price_ids`
mapping returned by the store. -/
def alignRow (logIds : Nat → Option ℚ) (p1 p2 : List (Nat × Int)) (d : Int) :
    Option (Int × ℚ × ℚ) :=
  match priceDict p1 d, priceDict p2 d with
  | some pid1, some pid2 =>
      match logIds pid1, logIds pid2 with
      | some v1, some v2 => some (d, v1, v2)
      | _, _ => none
  | _, _ => none

/-- `get_pair_log_prices`: filter both inputs to the date window, align on
the sorted common dates, and return `(log_prices_1, log_prices_2,
valid_dates)`. -/
def getPairLogPrices (logIds : Nat → Option ℚ) (p1 p2 : List (Nat × Int))
    (lo hi : Int) : List ℚ × List ℚ × List Int :=
  let f1 := p1.filter (inRange lo hi)
  let f2 := p2.filter (inRange lo hi)
  let rows := (commonDates f1 f2).filterMap (alignRow logIds f1 f2)
  (rows.map (fun r => r.2.1), rows.map (fun r => r.2.2), rows.map (fun r => r.1))

/-! ## Theorems -/

/-- C1: ThresholdSelector hysteresis. Once the drop timer is running
(`drop_start` is set), a row with `|z| >= S` matches none of the three
branches of the scan: the entry branch requires `drop_start is None`, the
timer-start branch requires `|z| < S`, and the completion branch requires
`|z| < S - 1`; so the state (including `drop_start`) and the counter are
unchanged. Consequently, on the concrete sequence that reaches 2.0, dips
to 1.5, spikes back to 2.5, and falls to 0.5 within 30 days, the drop for
threshold 2.0 is still counted. -/
theorem thresholdSelector_hysteresis (S : ℚ) (ab : Bool) (d0 : Int) (o : Obs)
    (hz : S ≤ absQ o.z) :
    thStep S ⟨ab, some d0⟩ o = (⟨ab, some d0⟩, 0) ∧
    dropsCount [⟨0, 2⟩, ⟨1, 3/2⟩, ⟨2, 5/2⟩, ⟨3, 1/2⟩] 2 = 1 := by
  constructor
  · have h3 : ¬(absQ o.z < S - 1) := by
      intro h; linarith
    have h2 : ¬(absQ o.z < S) := by
      intro h; linarith
    simp [thStep, h2, h3]
  · have s0 : thStep 2 ⟨false, none⟩ ⟨0, 2⟩ = (⟨true, none⟩, 0) := by
      norm_num [thStep, absQ]
    have s1 : thStep 2 ⟨true, none⟩ ⟨1, 3/2⟩ = (⟨true, some 1⟩, 0) := by
      norm_num [thStep, absQ]
    have s2 : thStep 2 ⟨true, some 1⟩ ⟨2, 5/2⟩ = (⟨true, some 1⟩, 0) := by
      norm_num [thStep, absQ]
    have s3 : thStep 2 ⟨true, some 1⟩ ⟨3, 1/2⟩ = (⟨false, none⟩, 1) := by
      norm_num [thStep, absQ]
    simp only [dropsCount, thRun, s0, s1, s2, s3]

/-- Witness for C1 at a concrete active-timer state and re-rising z-score. -/
theorem thresholdSelector_hysteresis_witness :
    thStep 2 ⟨true, some 0⟩ ⟨1, 5/2⟩ = (⟨true, some 0⟩, 0) ∧
    dropsCount [⟨0, 2⟩, ⟨1, 3/2⟩, ⟨2, 5/2⟩, ⟨3, 1/2⟩] 2 = 1 :=
  thresholdSelector_hysteresis 2 true 0 ⟨1, 5/2⟩ (by norm_num [absQ])

theorem selectDrop_cons (x p : ℚ × Nat) (xs : List (ℚ × Nat)) :
    selectDrop x (p :: xs) =
      selectDrop (if x.2 < p.2 ∨ (x.2 = p.2 ∧ x.1 < p.1) then p else x) xs := rfl

theorem selectDrop_mem : ∀ (xs : List (ℚ × Nat)) (x : ℚ × Nat),
    selectDrop x xs ∈ x :: xs
  | [], x => by simp [selectDrop]
  | p :: xs, x => by
      rw [selectDrop_cons]
      have h := selectDrop_mem xs (if x.2 < p.2 ∨ (x.2 = p.2 ∧ x.1 < p.1) then p else x)
      rcases List.mem_cons.mp h with h | h
      · rw [h]; split_ifs <;> simp
      · simp [List.mem_cons.mpr, h]

theorem selectDrop_ge : ∀ (xs : List (ℚ × Nat)) (x p : ℚ × Nat), p ∈ x :: xs →
    p.2 < (selectDrop x xs).2 ∨
      (p.2 = (selectDrop x xs).2 ∧ p.1 ≤ (selectDrop x xs).1)
  | [], x, p, hp => by
      rcases List.mem_singleton.mp hp with rfl
      right; exact ⟨rfl, le_rfl⟩
  | q :: xs, x, p, hp => by
      rw [selectDrop_cons]
      by_cases hc : x.2 < q.2 ∨ (x.2 = q.2 ∧ x.1 < q.1)
      · rw [if_pos hc]
        rcases List.mem_cons.mp hp with heq | hp'
        · rw [heq]
          have hq := selectDrop_ge xs q q (List.mem_cons_self q xs)
          rcases hc with h | ⟨h1, h2⟩
          · rcases hq with hq | ⟨hq1, hq2⟩
            · left; omega
            · left; omega
          · rcases hq with hq | ⟨hq1, hq2⟩
            · left; omega
            · right; exact ⟨by omega, le_trans (le_of_lt h2) hq2⟩
        · exact selectDrop_ge xs q p hp'
      · rw [if_neg hc]
        push_neg at hc
        rcases List.mem_cons.mp hp with heq | hp'
        · rw [heq]
          exact selectDrop_ge xs x x (List.mem_cons_self x xs)
        · rcases List.mem_cons.mp hp' with heq | hp''
          · rw [heq]
            have hx := selectDrop_ge xs x x (List.mem_cons_self x xs)
            rcases Nat.lt_or_ge q.2 x.2 with h | h
            · rcases hx with hx | ⟨hx1, hx2⟩
              · left; omega
              · left; omega
            · have he : q.2 = x.2 := by omega
              have hq1 : q.1 ≤ x.1 := hc.2 he.symm
              rcases hx with hx | ⟨hx1, hx2⟩
              · left; omega
              · right; exact ⟨by omega, le_trans hq1 hx2⟩
          · exact selectDrop_ge xs x p (List.mem_cons_of_mem x hp'')

/-- C4: ThresholdSelector result selection. If every candidate's drop
counter is zero the selector returns the sentinel 7; otherwise it returns
a candidate with a nonzero counter that is maximal by count, ties broken
towards the higher threshold. -/
theorem thresholdSelector_selection (data : List Obs) :
    ((∀ S ∈ thresholds, dropsCount data S = 0) → mostFrequentOneUnitDrop data = 7) ∧
    ((∃ S ∈ thresholds, dropsCount data S ≠ 0) →
      mostFrequentOneUnitDrop data ∈ thresholds ∧
      dropsCount data (mostFrequentOneUnitDrop data) ≠ 0 ∧
      ∀ S ∈ thresholds,
        dropsCount data S < dropsCount data (mostFrequentOneUnitDrop data) ∨
        (dropsCount data S = dropsCount data (mostFrequentOneUnitDrop data) ∧
          S ≤ mostFrequentOneUnitDrop data)) := by
  constructor
  · intro hall
    have hnil : (thresholds.map (fun S => (S, dropsCount data S))).filter
        (fun p => decide (p.2 ≠ 0)) = [] := by
      rw [List.filter_eq_nil_iff]
      intro p hp
      rcases List.mem_map.mp hp with ⟨S, hS, rfl⟩
      simp [hall S hS]
    unfold mostFrequentOneUnitDrop
    rw [hnil]
  · rintro ⟨S0, hS0, hne⟩
    have hmem0 : (S0, dropsCount data S0) ∈
        (thresholds.map (fun S => (S, dropsCount data S))).filter
          (fun p => decide (p.2 ≠ 0)) :=
      List.mem_filter.mpr ⟨List.mem_map.mpr ⟨S0, hS0, rfl⟩, by simpa using hne⟩
    cases hI : (thresholds.map (fun S => (S, dropsCount data S))).filter
        (fun p => decide (p.2 ≠ 0)) with
    | nil => rw [hI] at hmem0; cases hmem0
    | cons x xs =>
      have hres : mostFrequentOneUnitDrop data = (selectDrop x xs).1 := by
        unfold mostFrequentOneUnitDrop
        rw [hI]
      have hbest : selectDrop x xs ∈
          (thresholds.map (fun S => (S, dropsCount data S))).filter
            (fun p => decide (p.2 ≠ 0)) := by
        rw [hI]; exact selectDrop_mem xs x
      obtain ⟨hmap, hfil⟩ := List.mem_filter.mp hbest
      obtain ⟨Sb, hSb, hEq⟩ := List.mem_map.mp hmap
      have hb1 : (selectDrop x xs).1 = Sb := by rw [← hEq]
      have hb2 : (selectDrop x xs).2 = dropsCount data Sb := by rw [← hEq]
      have hbne : dropsCount data Sb ≠ 0 := by
        rw [← hb2]; simpa using hfil
      have hdrop_res : dropsCount data (mostFrequentOneUnitDrop data) =
          (selectDrop x xs).2 := by
        rw [hres, hb1, hb2]
      refine ⟨by rw [hres, hb1]; exact hSb, by rw [hdrop_res, hb2]; exact hbne, ?_⟩
      intro S hS
      by_cases h0 : dropsCount data S = 0
      · left
        rw [hdrop_res, hb2, h0]
        exact Nat.pos_of_ne_zero hbne
      · have hmemS : (S, dropsCount data S) ∈ x :: xs := by
          rw [← hI]
          exact List.mem_filter.mpr ⟨List.mem_map.mpr ⟨S, hS, rfl⟩, by simpa using h0⟩
        have hrel := selectDrop_ge xs x (S, dropsCount data S) hmemS
        rw [hdrop_res, hres, hb1]
        rcases hrel with h | ⟨h1, h2⟩
        · left; exact h
        · right; exact ⟨h1, by rw [← hb1]; exact h2⟩

/-- Witness for C4 at the empty sequence, where no drop is ever recorded
and the sentinel 7 is returned. -/
theorem thresholdSelector_selection_witness : mostFrequentOneUnitDrop [] = 7 :=
  (thresholdSelector_selection []).1 (by decide)

/-- C3: ReversionBacktester transition rules. When flat, `z >= S` opens an
upper trade and `z <= -S` opens a lower one (recording the row's date and
index); an open upper trade closes with success at a row with
`z <= S - 1`, an open lower trade at a row with `z >= -S + 1`, in both
cases regardless of how long the trade has been open (the exit check
precedes the timeout check, so a row satisfying both records a success);
a row reaching neither exit closes the trade as a failure exactly when
`i - entry_index >= 30`; otherwise the row changes nothing. Since the
state can only change through these rules, the recorded exit row is the
first row after entry satisfying its condition. -/
theorem backtester_transitions (S : ℚ) (hS : 0 < S) (i : Nat) (o : Obs)
    (entries : List TradeRec) :
    (S ≤ o.z →
      btStep S ⟨none, entries⟩ i o = ⟨some (.upper, o.date, i), entries⟩) ∧
    (o.z ≤ -S →
      btStep S ⟨none, entries⟩ i o = ⟨some (.lower, o.date, i), entries⟩) ∧
    (∀ ed ei, o.z ≤ S - 1 →
      btStep S ⟨some (.upper, ed, ei), entries⟩ i o =
        ⟨none, entries ++ [⟨ed, o.date, true, .upper⟩]⟩) ∧
    (∀ ed ei, -S + 1 ≤ o.z →
      btStep S ⟨some (.lower, ed, ei), entries⟩ i o =
        ⟨none, entries ++ [⟨ed, o.date, true, .lower⟩]⟩) ∧
    (∀ ty ed ei, ¬exitCond S ty o.z → 30 ≤ i - ei →
      btStep S ⟨some (ty, ed, ei), entries⟩ i o =
        ⟨none, entries ++ [⟨ed, o.date, false, ty⟩]⟩) ∧
    (∀ ty ed ei, ¬exitCond S ty o.z → i - ei < 30 →
      btStep S ⟨some (ty, ed, ei), entries⟩ i o = ⟨some (ty, ed, ei), entries⟩) := by
  refine ⟨?_, ?_, ?_, ?_, ?_, ?_⟩
  · intro hz
    simp [btStep, hz]
  · intro hz
    have hns : ¬(S ≤ o.z) := by intro h; linarith
    simp [btStep, hz, hns]
  · intro ed ei hz
    have he : exitCond S .upper o.z := hz
    simp [btStep, he]
  · intro ed ei hz
    have he : exitCond S .lower o.z := hz
    simp [btStep, he]
  · intro ty ed ei hne ht
    simp [btStep, hne, ht]
  · intro ty ed ei hne ht
    simp [btStep, hne, Nat.not_le.mpr ht]

/-- Witness for C3: with threshold 2 a flat state and a row with z-score 3
opens an upper trade at that row's date and index. -/
theorem backtester_transitions_witness :
    btStep 2 ⟨none, []⟩ 0 ⟨5, 3⟩ = ⟨some (.upper, 5, 0), []⟩ :=
  (backtester_transitions 2 (by norm_num) 0 ⟨5, 3⟩ []).1 (by norm_num)

theorem btStep_inv (S : ℚ) (st : BTState) (i : Nat) (o : Obs) (rest : List Obs)
    (hinv : stInv st (o :: rest)) (hlt : ∀ o' ∈ rest, o.date < o'.date) :
    stInv (btStep S st i o) rest := by
  obtain ⟨pos, entries⟩ := st
  obtain ⟨⟨hA, hB⟩, hC, hD⟩ := hinv
  have hC' : ∀ e ∈ entries, ∀ o' ∈ rest, e.exit_date < o'.date :=
    fun e he o' ho' => hC e he o' (List.mem_cons_of_mem _ ho')
  cases pos with
  | none =>
      simp only [btStep]
      split_ifs with h1 h2 <;>
        refine ⟨⟨hA, hB⟩, hC', ?_⟩
      · rintro ty ed ei h
        injection h with h'
        injection h' with ht h'
        injection h' with hd hi
        subst hd
        exact ⟨hlt, fun e he => hC e he o (List.mem_cons_self o rest)⟩
      · rintro ty ed ei h
        injection h with h'
        injection h' with ht h'
        injection h' with hd hi
        subst hd
        exact ⟨hlt, fun e he => hC e he o (List.mem_cons_self o rest)⟩
      · rintro ty ed ei h
        exact (Option.noConfusion h)
  | some p =>
      obtain ⟨ty, ed, ei⟩ := p
      have hDo := hD ty ed ei rfl
      simp only [btStep]
      split_ifs with h1 h2
      · -- success exit: append ⟨ed, o.date, true, ty⟩
        refine ⟨⟨?_, ?_⟩, ?_, ?_⟩
        · intro e he
          rcases List.mem_append.mp he with he' | he'
          · exact hA e he'
          · rcases List.mem_singleton.mp he' with rfl
            exact hDo.1 o (List.mem_cons_self o rest)
        · rw [List.pairwise_append]
          exact ⟨hB, List.pairwise_singleton _ _,
            fun a ha b hb => by
              rcases List.mem_singleton.mp hb with rfl
              exact hDo.2 a ha⟩
        · intro e he o' ho'
          rcases List.mem_append.mp he with he' | he'
          · exact hC' e he' o' ho'
          · rcases List.mem_singleton.mp he' with rfl
            exact hlt o' ho'
        · rintro ty' ed' ei' h
          exact (Option.noConfusion h)
      · -- timeout exit: append ⟨ed, o.date, false, ty⟩
        refine ⟨⟨?_, ?_⟩, ?_, ?_⟩
        · intro e he
          rcases List.mem_append.mp he with he' | he'
          · exact hA e he'
          · rcases List.mem_singleton.mp he' with rfl
            exact hDo.1 o (List.mem_cons_self o rest)
        · rw [List.pairwise_append]
          exact ⟨hB, List.pairwise_singleton _ _,
            fun a ha b hb => by
              rcases List.mem_singleton.mp hb with rfl
              exact hDo.2 a ha⟩
        · intro e he o' ho'
          rcases List.mem_append.mp he with he' | he'
          · exact hC' e he' o' ho'
          · rcases List.mem_singleton.mp he' with rfl
            exact hlt o' ho'
        · rintro ty' ed' ei' h
          exact (Option.noConfusion h)
      · -- no-op
        refine ⟨⟨hA, hB⟩, hC', ?_⟩
        rintro ty' ed' ei' h
        injection h with h'
        injection h' with ht h'
        injection h' with hd hi
        subst hd
        exact ⟨fun o' ho' => hDo.1 o' (List.mem_cons_of_mem _ ho'), hDo.2⟩

theorem btRun_inv (S : ℚ) : ∀ (data : List Obs) (st : BTState) (i : Nat),
    data.Pairwise (fun a b => a.date < b.date) → stInv st data →
    entriesOK (btRun S st i data).entries
  | [], st, _, _, hinv => hinv.1
  | o :: rest, st, i, hp, hinv => by
      have hp' := List.pairwise_cons.mp hp
      exact btRun_inv S rest (btStep S st i o) (i + 1) hp'.2
        (btStep_inv S st i o rest hinv hp'.1)

/-- C6: trade-window non-overlap. On a strictly date-sorted z-score
sequence, every recorded trade window opens strictly before it closes,
and any two windows in the output order are disjoint: the earlier one's
exit date is strictly before the later one's entry date. -/
theorem backtester_nonoverlap (S : ℚ) (data : List Obs)
    (hsorted : data.Pairwise (fun a b => a.date < b.date)) :
    (∀ e ∈ analyzeThresholdReversions S data, e.entry_date < e.exit_date) ∧
    (analyzeThresholdReversions S data).Pairwise
      (fun a b => a.exit_date < b.entry_date) := by
  refine btRun_inv S data ⟨none, []⟩ 0 hsorted ⟨⟨?_, ?_⟩, ?_, ?_⟩
  · intro e he; cases he
  · exact List.Pairwise.nil
  · intro e he; cases he
  · rintro ty ed ei h
    exact (Option.noConfusion h)

/-- Witness for C6 on a two-row sequence entering at z = 2 and exiting
at z = 0.5 the next day. -/
theorem backtester_nonoverlap_witness :
    (∀ e ∈ analyzeThresholdReversions 2 [⟨0, 2⟩, ⟨1, 1/2⟩],
      e.entry_date < e.exit_date) ∧
    (analyzeThresholdReversions 2 [⟨0, 2⟩, ⟨1, 1/2⟩]).Pairwise
      (fun a b => a.exit_date < b.entry_date) :=
  backtester_nonoverlap 2 [⟨0, 2⟩, ⟨1, 1/2⟩] (by simp [List.pairwise_cons])

theorem window_eq_of_agree (s s' : List ℚ) (t : Nat) (h90 : 90 ≤ t)
    (hagree : ∀ j, t - 90 ≤ j → j < t → s[j]? = s'[j]?) :
    window s t = window s' t := by
  apply List.ext_getElem?
  intro k
  by_cases hk : k < 90
  · rw [window, window, List.getElem?_take_of_lt hk, List.getElem?_take_of_lt hk,
      List.getElem?_drop, List.getElem?_drop]
    exact hagree (t - 90 + k) (Nat.le_add_right _ _) (by omega)
  · have h1 : (window s t).length ≤ k := by
      rw [window, List.length_take]
      omega
    have h2 : (window s' t).length ≤ k := by
      rw [window, List.length_take]
      omega
    rw [List.getElem?_eq_none h1, List.getElem?_eq_none h2]

/-- C5: SpreadComputer causality. The rolling mean and rolling standard
deviation at index `t >= 90` are functions of the trailing window
`spread[t-90 : t]` alone: two spread sequences that agree on the indices
`t-90` through `t-1` (in particular, sequences differing only at index
`t` itself) yield identical `mean[t]` and `std[t]`. -/
theorem spreadComputer_causality (s s' : List ℚ) (t : Nat) (h90 : 90 ≤ t)
    (hagree : ∀ j, t - 90 ≤ j → j < t → s[j]? = s'[j]?) :
    rollingMean s t = rollingMean s' t ∧ rollingStd s t = rollingStd s' t := by
  have hw := window_eq_of_agree s s' t h90 hagree
  constructor
  · rw [rollingMean, rollingMean, hw]
  · rw [rollingStd, rollingStd, rollingVar, rollingVar, hw]

/-- Witness for C5: two 91-point spread sequences sharing their first 90
points and differing at index 90 have equal mean and std there. -/
theorem spreadComputer_causality_witness :
    rollingMean (List.replicate 90 (0:ℚ) ++ [5]) 90 =
      rollingMean (List.replicate 90 (0:ℚ) ++ [7]) 90 ∧
    rollingStd (List.replicate 90 (0:ℚ) ++ [5]) 90 =
      rollingStd (List.replicate 90 (0:ℚ) ++ [7]) 90 :=
  spreadComputer_causality _ _ 90 (le_refl 90) (by
    intro j h1 h2
    rw [List.getElem?_append_left (by simpa using h2),
      List.getElem?_append_left (by simpa using h2)])

theorem spreadFlat_eq : spreadFlat = List.replicate 90 0 ++ [1] := by
  have h91 : List.replicate 91 (3:ℚ) = List.replicate 90 3 ++ [3] := by decide
  rw [spreadFlat, spreadSeries, h91,
    List.zipWith_append _ _ _ _ _ (by simp)]
  norm_num

theorem rollingMean_spreadFlat : rollingMean spreadFlat 90 = 0 := by
  have hwin : window spreadFlat 90 = List.replicate 90 0 := by
    rw [spreadFlat_eq, window]
    norm_num
  rw [rollingMean, hwin, listMean]
  simp

theorem rollingVar_spreadFlat : rollingVar spreadFlat 90 = 0 := by
  have hwin : window spreadFlat 90 = List.replicate 90 0 := by
    rw [spreadFlat_eq, window]
    norm_num
  have hm : listMean (List.replicate 90 (0:ℚ)) = 0 := by
    rw [listMean]; simp
  rw [rollingVar, hwin, sampleVar, hm]
  simp

/-- C2 is violated by the code: although the loop computes a guarded
z-score of 0 for a zero-std window (epsilon.py line 61), line 69 then
recomputes the entire `zscore` column as `(spread - rolling_mean) /
rolling_std`, and that recomputed column is what line 98 stores. On the
concrete aligned input whose spread is flat 0 for the first 90 days and 1
at day 90, the rolling std at t = 90 is exactly 0, the loop value is 0 as
the claim states, but the recorded z-score is +infinity (numpy division
of the finite nonzero numerator by 0.0), not 0. -/
theorem spreadComputer_zeroStd_bug :
    rollingStd spreadFlat 90 = 0 ∧
    loopZscore spreadFlat 90 = 0 ∧
    storedZscore spreadFlat 90 = PFloat.posInf ∧
    storedZscore spreadFlat 90 ≠ PFloat.fin 0 := by
  have hstd : rollingStd spreadFlat 90 = 0 := by
    rw [rollingStd, rollingVar_spreadFlat]
    simp
  have hget : spreadFlat.getD 90 0 = 1 := by
    rw [spreadFlat_eq]
    rfl
  have hnum : ((spreadFlat.getD 90 0 - rollingMean spreadFlat 90 : ℚ) : ℝ) = 1 := by
    rw [hget, rollingMean_spreadFlat]
    norm_num
  refine ⟨hstd, ?_, ?_, ?_⟩
  · rw [loopZscore, if_neg]
    simp [hstd]
  · rw [storedZscore, hnum, hstd, pfDiv]
    norm_num
  · rw [storedZscore, hnum, hstd, pfDiv]
    norm_num
    intro h
    exact PFloat.noConfusion h

/-- C7 counterexample: a pair with only 10 aligned points does not make
`run_engle_granger_test` raise anything — the run returns normally with an
empty result list, and in particular does not signal `InsufficientData`,
contrary to the claim. -/
theorem insufficientData_counterexample :
    runEngleGrangerTestE egTestConst [(("A", "B"), tenPts)] = .ok [] ∧
    runEngleGrangerTestE egTestConst [(("A", "B"), tenPts)] ≠
      .error PipeErr.insufficientData := by
  have hlen : tenPts.length = 10 := by rfl
  constructor
  · rw [runEngleGrangerTestE]
    simp [runEngleGrangerTest, hlen]
  · rw [runEngleGrangerTestE]
    simp

/-- C7 amended: a pair whose aligned series is shorter than 20 points is
skipped silently — the run never produces an error value, and its result
is exactly the result on the input with all short pairs removed, so the
short pair contributes no rows. -/
theorem insufficientData_silent_skip (egTest : List PricePt → Option EGOut)
    (logPrices : List ((String × String) × List PricePt)) :
    runEngleGrangerTestE egTest logPrices =
      .ok (runEngleGrangerTest egTest logPrices) ∧
    runEngleGrangerTest egTest logPrices =
      runEngleGrangerTest egTest
        (logPrices.filter (fun pr => decide (20 ≤ pr.2.length))) := by
  refine ⟨rfl, ?_⟩
  induction logPrices with
  | nil => rfl
  | cons hd tl ih =>
      obtain ⟨pair, prices⟩ := hd
      by_cases h : prices.length < 20
      · have hb : (decide (20 ≤ prices.length)) = false := by
          simp only [decide_eq_false_iff_not]
          omega
      /- the short pair is dropped on both sides -/
        rw [List.filter_cons]
        rw [hb]
        simp only [Bool.false_eq_true, if_false]
        rw [runEngleGrangerTest, if_pos h]
        exact ih
      · have hb : (decide (20 ≤ prices.length)) = true := by
          simp only [decide_eq_true_eq]
          omega
        rw [List.filter_cons, hb]
        simp only [if_true]
        rw [runEngleGrangerTest, if_neg h, runEngleGrangerTest, if_neg h]
        cases hegtest : egTest prices with
        | some r => rw [ih]
        | none => rw [ih]

/-- C8 counterexample: a cointegration row whose p-value equals the
threshold exactly (1/20 = 0.05) is classified as cointegrated by both
classification sites — it is returned by `get_latest_cointegrated_pairs`
and it opens a cointegration period in `analyze_cointegration_duration` —
contradicting the claimed strict `<` rule. -/
theorem cointegration_threshold_counterexample :
    getLatestCointegratedPairs [⟨"A", "B", 1/20, 2, 0⟩] (1/20) = [("A", "B", 2)] ∧
    buildPeriods (1/20) none [(0, 1/20, 2)] = [⟨0, 0, 1, 1/20, 2⟩] := by
  constructor
  · rw [getLatestCointegratedPairs, latestTestDate]
    norm_num
  · rw [buildPeriods, if_pos (le_refl (1/20 : ℚ)), buildPeriods]
    norm_num

/-- C8 amended: classification is non-strict. A triple is output by
`get_latest_cointegrated_pairs` exactly when some table row of the latest
test date has `p_value <= threshold` and projects to it; in particular a
pair with p-value equal to the threshold is classified as cointegrated. -/
theorem cointegration_threshold_nonstrict (table : List CointRow) (maxP : ℚ) :
    ∀ x, x ∈ getLatestCointegratedPairs table maxP ↔
      ∃ r ∈ table, latestTestDate table = some r.test_date ∧
        r.p_value ≤ maxP ∧ x = (r.sym1, r.sym2, r.beta) := by
  intro x
  rw [getLatestCointegratedPairs]
  cases hd : latestTestDate table with
  | none =>
      have htab : table = [] := by
        rw [latestTestDate] at hd
        have := List.max?_eq_none_iff.mp hd
        exact List.map_eq_nil_iff.mp this
      subst htab
      simp
  | some d =>
      simp only [List.mem_map, List.mem_filter, decide_eq_true_eq]
      constructor
      · rintro ⟨r, ⟨hrt, hrd, hple⟩, rfl⟩
        exact ⟨r, hrt, by rw [hrd], hple, rfl⟩
      · rintro ⟨r, hrt, hdd, hple, rfl⟩
        injection hdd with hdd
        exact ⟨r, ⟨hrt, hdd.symm, hple⟩, rfl⟩

/-- C10: the alpha plumbing is inconsistent. The rows returned by
`get_latest_cointegrated_pairs` are 3-tuples, so the `alphas` dict
comprehension of epsilon.py, which reads `pair[3]`, fails with an index
out of range on any nonempty result before any spread is computed; and
the `alpha` keyword argument passed by `analyze_single_pair` is not among
the parameters accepted by `add_cointegration_test`, so the computed
alpha is never persisted. -/
theorem alphaPlumbing_inconsistency (rows : List (String × String × ℚ))
    (hne : rows ≠ []) :
    alphasDict rows = none ∧
    "alpha" ∈ analyzeSinglePairKwargs ∧
    "alpha" ∉ addCointegrationTestParams := by
  refine ⟨?_, by decide, by decide⟩
  cases rows with
  | nil => exact absurd rfl hne
  | cons r rs =>
      have h : (alphaOfRow r).map (fun v => ((r.1, r.2.1), v)) = none := by
        rw [alphaOfRow, cointRowTuple]
        rfl
      simp only [alphasDict, List.mapM_cons, h]
      rfl

/-- Witness for C10 at a one-row result set. -/
theorem alphaPlumbing_inconsistency_witness :
    alphasDict [("A", "B", 2)] = none ∧
    "alpha" ∈ analyzeSinglePairKwargs ∧
    "alpha" ∉ addCointegrationTestParams :=
  alphaPlumbing_inconsistency [("A", "B", 2)] (by simp)

theorem priceDict_isSome_iff (prices : List (Nat × Int)) (d : Int) :
    (priceDict prices d).isSome ↔ d ∈ prices.map (·.2) := by
  rw [priceDict, Option.isSome_map', List.getLast?_isSome]
  constructor
  · intro h
    rcases List.exists_mem_of_ne_nil _ h with ⟨pr, hpr⟩
    have hm := List.mem_filter.mp hpr
    exact List.mem_map.mpr ⟨pr, hm.1, by simpa using hm.2⟩
  · intro h
    rcases List.mem_map.mp h with ⟨pr, hpr, rfl⟩
    intro hnil
    have := List.filter_eq_nil_iff.mp hnil pr hpr
    simp at this

theorem priceDict_some_mem (prices : List (Nat × Int)) (d : Int) (pid : Nat)
    (h : priceDict prices d = some pid) : ∃ pr ∈ prices, pr.1 = pid := by
  rw [priceDict] at h
  cases hl : (prices.filter (fun pr => decide (pr.2 = d))).getLast? with
  | none => rw [hl] at h; cases h
  | some pr =>
      rw [hl] at h
      injection h with h
      have hm := List.mem_of_getLast?_eq_some hl
      exact ⟨pr, (List.mem_filter.mp hm).1, h⟩

theorem alignRow_total (logIds : Nat → Option ℚ) (p1 p2 : List (Nat × Int)) (d : Int)
    (h1 : d ∈ p1.map (·.2)) (h2 : d ∈ p2.map (·.2))
    (ht1 : ∀ pr ∈ p1, (logIds pr.1).isSome)
    (ht2 : ∀ pr ∈ p2, (logIds pr.1).isSome) :
    ∃ v1 v2, alignRow logIds p1 p2 d = some (d, v1, v2) := by
  obtain ⟨pid1, hp1⟩ := Option.isSome_iff_exists.mp ((priceDict_isSome_iff p1 d).mpr h1)
  obtain ⟨pid2, hp2⟩ := Option.isSome_iff_exists.mp ((priceDict_isSome_iff p2 d).mpr h2)
  obtain ⟨pr1, hpr1, rfl⟩ := priceDict_some_mem p1 d pid1 hp1
  obtain ⟨pr2, hpr2, rfl⟩ := priceDict_some_mem p2 d pid2 hp2
  obtain ⟨v1, hv1⟩ := Option.isSome_iff_exists.mp (ht1 pr1 hpr1)
  obtain ⟨v2, hv2⟩ := Option.isSome_iff_exists.mp (ht2 pr2 hpr2)
  refine ⟨v1, v2, ?_⟩
  simp only [alignRow, hp1, hp2, hv1, hv2]

theorem filterMap_fst_eq (f : Int → Option (Int × ℚ × ℚ)) :
    ∀ (ds : List Int), (∀ d ∈ ds, ∃ v1 v2, f d = some (d, v1, v2)) →
      (ds.filterMap f).map (fun r => r.1) = ds
  | [], _ => rfl
  | d :: ds, h => by
      obtain ⟨v1, v2, hf⟩ := h d (List.mem_cons_self d ds)
      rw [List.filterMap_cons_some hf, List.map_cons,
        filterMap_fst_eq f ds (fun d' hd' => h d' (List.mem_cons_of_mem _ hd'))]

/-- C9: SeriesAligner inner-join semantics. When both inputs fall inside
the requested date window and the log-price mapping covers every input
price id (the store's contract: every price point has a log price), the
returned `valid_dates` list is exactly the sorted set intersection of the
two inputs' date sets: it is strictly ascending, its length is the
cardinality of the date-set intersection, a date appears in it exactly
when it appears in both inputs, and the two aligned price columns have
the same length, so the output has exactly one (date, priceA, priceB)
tuple per common date. -/
theorem seriesAligner_innerJoin (logIds : Nat → Option ℚ)
    (p1 p2 : List (Nat × Int)) (lo hi : Int)
    (hr1 : ∀ pr ∈ p1, lo ≤ pr.2 ∧ pr.2 ≤ hi)
    (hr2 : ∀ pr ∈ p2, lo ≤ pr.2 ∧ pr.2 ≤ hi)
    (ht1 : ∀ pr ∈ p1, (logIds pr.1).isSome)
    (ht2 : ∀ pr ∈ p2, (logIds pr.1).isSome) :
    (getPairLogPrices logIds p1 p2 lo hi).2.2 = commonDates p1 p2 ∧
    List.Sorted (· < ·) (getPairLogPrices logIds p1 p2 lo hi).2.2 ∧
    (getPairLogPrices logIds p1 p2 lo hi).2.2.length =
      (dateSet p1 ∩ dateSet p2).card ∧
    (∀ d, d ∈ (getPairLogPrices logIds p1 p2 lo hi).2.2 ↔
      d ∈ p1.map (·.2) ∧ d ∈ p2.map (·.2)) ∧
    (getPairLogPrices logIds p1 p2 lo hi).1.length =
      (getPairLogPrices logIds p1 p2 lo hi).2.2.length ∧
    (getPairLogPrices logIds p1 p2 lo hi).2.1.length =
      (getPairLogPrices logIds p1 p2 lo hi).2.2.length := by
  have hf1 : p1.filter (inRange lo hi) = p1 :=
    List.filter_eq_self.mpr (fun pr hpr => by
      simp only [inRange, decide_eq_true_eq]
      exact hr1 pr hpr)
  have hf2 : p2.filter (inRange lo hi) = p2 :=
    List.filter_eq_self.mpr (fun pr hpr => by
      simp only [inRange, decide_eq_true_eq]
      exact hr2 pr hpr)
  have hrows : ∀ d ∈ commonDates p1 p2,
      ∃ v1 v2, alignRow logIds p1 p2 d = some (d, v1, v2) := by
    intro d hd
    have hmem := (Finset.mem_sort (α := Int) (· ≤ ·)).mp hd
    rw [Finset.mem_inter] at hmem
    have h1 : d ∈ p1.map (·.2) := by
      have := hmem.1
      rwa [dateSet, List.mem_toFinset] at this
    have h2 : d ∈ p2.map (·.2) := by
      have := hmem.2
      rwa [dateSet, List.mem_toFinset] at this
    exact alignRow_total logIds p1 p2 d h1 h2 ht1 ht2
  have hdates : (getPairLogPrices logIds p1 p2 lo hi).2.2 = commonDates p1 p2 := by
    simp only [getPairLogPrices, hf1, hf2]
    exact filterMap_fst_eq _ _ hrows
  refine ⟨hdates, ?_, ?_, ?_, ?_, ?_⟩
  · rw [hdates, commonDates]
    exact Finset.sort_sorted_lt _
  · rw [hdates, commonDates, Finset.length_sort]
  · intro d
    rw [hdates, commonDates, Finset.mem_sort, Finset.mem_inter, dateSet, dateSet,
      List.mem_toFinset, List.mem_toFinset]
  · have : (getPairLogPrices logIds p1 p2 lo hi).1.length =
        (getPairLogPrices logIds p1 p2 lo hi).2.2.length := by
      simp only [getPairLogPrices, List.length_map]
    exact this
  · simp only [getPairLogPrices, List.length_map]

/-- Witness for C9 on two two-point price lists overlapping on one date. -/
theorem seriesAligner_innerJoin_witness :
    (getPairLogPrices (fun pid => if pid ≤ 4 then some ((pid : ℚ)) else none)
      [(1, 0), (2, 1)] [(3, 1), (4, 2)] 0 2).2.2 =
      commonDates [(1, 0), (2, 1)] [(3, 1), (4, 2)] :=
  (seriesAligner_innerJoin _ _ _ _ _ (by decide) (by decide)
    (by decide) (by decide)).1

end QuantBot
